import Mathlib

/-!
Verification of the tag inference post-processing pipeline of
PixaiTaggerOnnxGui: the tag selector of `OnnxTagger.infer_batch_prepared`,
the solo-rule filter, the batch processing loop, the tag file store
(`tag_utils.py`), and the undo/redo manager (`undo_manager.py`).

Scores are embedded as rationals; tag-file contents as lists of
characters; the filesystem as a partial map from paths to contents.
-/

/-- Tag categories, from `TagCategory` in src/tagging_core.py. -/
inductive TagCategory where
  | general
  | artist
  | rating
  | copyright
  | character
  | meta
deriving DecidableEq, Repr, Inhabited

/-- A row of the loaded label table, from `TagMeta` in src/tagging_core.py.
`load_selected_tags` only ever stores categories 0-5, so `category` is a
`TagCategory` directly. -/
structure TagMeta where
  name : String
  category : TagCategory
  count : Option Nat := none
  ips : List String := []
deriving DecidableEq, Repr, Inhabited

/-- From `TagPrediction` in src/tagging_core.py. -/
structure TagPrediction where
  name : String
  score : ℚ
  category : TagCategory
deriving DecidableEq, Repr, Inhabited

/-- Threshold resolution of `infer_batch_prepared`:
`cat_thresholds.get(category, cat_thresholds.get(TagCategory.GENERAL, 0.0))`. -/
def resolveThreshold (th : TagCategory → Option ℚ) (c : TagCategory) : ℚ :=
  match th c with
  | some t => t
  | none =>
    match th TagCategory.general with
    | some t => t
    | none => 0

/-- The absolute floor `score_floor = 1e-4` of `infer_batch_prepared`. -/
def scoreFloor : ℚ := 1 / 10000

/-- The per-tag keep decision of `infer_batch_prepared` (lines 237-248):
drop when `score < score_floor`, then drop when `score < threshold`,
otherwise build the `TagPrediction`. -/
def keepPred (th : TagCategory → Option ℚ) (m : TagMeta) (s : ℚ) :
    Option TagPrediction :=
  if s < scoreFloor then none
  else if s < resolveThreshold th m.category then none
  else some ⟨m.name, s, m.category⟩

/-- The `raw_predictions` candidate list built by zipping the label table
with the scores vector and applying the keep decision. -/
def rawPredictions (labels : List TagMeta) (scores : List ℚ)
    (th : TagCategory → Option ℚ) : List TagPrediction :=
  (labels.zip scores).filterMap fun ms => keepPred th ms.1 ms.2

/-- Sort key of `infer_batch_prepared` line 249:
`sorted(raw_predictions, key=lambda pred: (-pred.score, pred.name))`.
`a` may precede `b` iff `a` outscores `b`, or scores tie and `a.name ≤ b.name`. -/
def predLE (a b : TagPrediction) : Bool :=
  decide (b.score < a.score ∨ (a.score = b.score ∧ a.name ≤ b.name))

/-- Stable insertion used to embed Python's stable sort. -/
def insertBy (le : α → α → Bool) (x : α) : List α → List α
  | [] => [x]
  | y :: ys => if le x y then x :: y :: ys else y :: insertBy le x ys

/-- Stable sort: inserts each element after all earlier elements whose key
is `≤` its own, matching the semantics of Python's stable `sorted`. -/
def sortBy (le : α → α → Bool) : List α → List α
  | [] => []
  | x :: xs => insertBy le x (sortBy le xs)

/-- `per_category[category] = current + 1` on the running per-category counts
(`dict.get` with default 0). -/
def bump (f : TagCategory → ℕ) (c : TagCategory) : TagCategory → ℕ :=
  fun d => if d = c then f d + 1 else f d

/-- The greedy acceptance walk of `infer_batch_prepared` lines 252-264:
break at the global hard cap, skip a candidate whose category reached its
configured cap, otherwise accept and count. -/
def takeLoop (caps : TagCategory → Option ℕ) (hcap : ℕ) :
    List TagPrediction → List TagPrediction → (TagCategory → ℕ) →
    List TagPrediction
  | [], taken, _ => taken
  | p :: rest, taken, perCat =>
    if hcap ≤ taken.length then taken
    else
      match caps p.category with
      | some limit =>
        if limit ≤ perCat p.category then takeLoop caps hcap rest taken perCat
        else takeLoop caps hcap rest (taken ++ [p]) (bump perCat p.category)
      | none => takeLoop caps hcap rest (taken ++ [p]) (bump perCat p.category)

/-- The six tag categories; the key space of the `max_tags` mapping. -/
def allCategories : List TagCategory :=
  [.general, .artist, .rating, .copyright, .character, .meta]

/-- Python's `if cat_limits:` truthiness: the caps mapping has at least one key. -/
def capsConfigured (caps : TagCategory → Option ℕ) : Bool :=
  allCategories.any fun c => (caps c).isSome

/-- `sum(cat_limits.values())`. -/
def capsSum (caps : TagCategory → Option ℕ) : ℕ :=
  (allCategories.map fun c => (caps c).getD 0).sum

/-- `hard_cap = sum(cat_limits.values()) if cat_limits else 100`. -/
def hardCap (caps : TagCategory → Option ℕ) : ℕ :=
  if capsConfigured caps then capsSum caps else 100

/-- Number of predictions of category `c` in a list. -/
def countCat (c : TagCategory) (l : List TagPrediction) : ℕ :=
  l.countP fun p => decide (p.category = c)

/-- The per-image tag selection of `infer_batch_prepared`: filter by floor
and thresholds, sort by `(-score, name)`, then the greedy capped walk. -/
def selectTags (labels : List TagMeta) (scores : List ℚ)
    (th : TagCategory → Option ℚ) (caps : TagCategory → Option ℕ) :
    List TagPrediction :=
  takeLoop caps (hardCap caps)
    (sortBy predLE (rawPredictions labels scores th)) [] (fun _ => 0)

/-- C1: a tag survives the per-tag filter of `infer_batch_prepared` iff its
score is at least the absolute floor 1e-4 and at least its resolved
threshold, where the resolved threshold is the category's configured
threshold, else General's configured threshold, else 0; the comparison is
strict less-than for rejection, so a score equal to the resolved threshold
is accepted and a score strictly below the floor is rejected. -/
theorem keepPred_isSome_iff :
    ∀ (th : TagCategory → Option ℚ) (m : TagMeta) (s : ℚ),
      ((keepPred th m s).isSome ↔
        (1 / 10000 : ℚ) ≤ s ∧ resolveThreshold th m.category ≤ s) ∧
      (∀ c : TagCategory,
        resolveThreshold th c = (th c).getD ((th TagCategory.general).getD 0)) ∧
      (∀ labels scores,
        rawPredictions labels scores th =
          (labels.zip scores).filterMap fun ms => keepPred th ms.1 ms.2) := by
  intro th m s
  refine ⟨?_, ?_, fun _ _ => rfl⟩
  · unfold keepPred scoreFloor
    split
    · rename_i hfl
      simp only [Option.isSome_none, Bool.false_eq_true, false_iff]
      rintro ⟨h1, -⟩
      exact absurd h1 (not_le.mpr hfl)
    · rename_i h1
      split
      · rename_i h2
        simp only [Option.isSome_none, Bool.false_eq_true, false_iff]
        rintro ⟨-, h⟩
        exact absurd h (not_le.mpr h2)
      · rename_i h2
        simp only [Option.isSome_some, true_iff]
        exact ⟨not_lt.mp h1, not_lt.mp h2⟩
  · intro c
    unfold resolveThreshold
    cases th c <;> cases th TagCategory.general <;> rfl

lemma takeLoop_length_le (caps : TagCategory → Option ℕ) (hcap : ℕ) :
    ∀ (l taken : List TagPrediction) (perCat : TagCategory → ℕ),
      taken.length ≤ hcap →
      (takeLoop caps hcap l taken perCat).length ≤ hcap := by
  intro l
  induction l with
  | nil => intro taken perCat h; exact h
  | cons p rest ih =>
    intro taken perCat h
    unfold takeLoop
    split
    · exact h
    · rename_i hlt
      have hlen : taken.length < hcap := lt_of_not_le hlt
      have happ : (taken ++ [p]).length ≤ hcap := by
        simp only [List.length_append, List.length_singleton]
        omega
      split
      · split
        · exact ih taken perCat h
        · exact ih (taken ++ [p]) _ happ
      · exact ih (taken ++ [p]) _ happ

lemma countCat_append (c : TagCategory) (l₁ l₂ : List TagPrediction) :
    countCat c (l₁ ++ l₂) = countCat c l₁ + countCat c l₂ := by
  unfold countCat
  exact List.countP_append _ _ _

lemma takeLoop_countCat_le (caps : TagCategory → Option ℕ) (hcap : ℕ) :
    ∀ (l taken : List TagPrediction) (perCat : TagCategory → ℕ),
      (∀ c, perCat c = countCat c taken) →
      (∀ c k, caps c = some k → perCat c ≤ k) →
      ∀ c k, caps c = some k →
        countCat c (takeLoop caps hcap l taken perCat) ≤ k := by
  intro l
  induction l with
  | nil =>
    intro taken perCat htrack hbound c k hck
    unfold takeLoop
    have := htrack c
    have := hbound c k hck
    omega
  | cons p rest ih =>
    intro taken perCat htrack hbound c k hck
    have htrack' : ∀ c, bump perCat p.category c = countCat c (taken ++ [p]) := by
      intro c
      rw [countCat_append, ← htrack c]
      simp only [bump]
      by_cases hc : c = p.category
      · subst hc
        simp [countCat, List.countP_cons]
      · have hpc : ¬ p.category = c := fun h => hc h.symm
        simp [countCat, List.countP_cons, hc, hpc]
    unfold takeLoop
    split
    · have := htrack c
      have := hbound c k hck
      omega
    · split
      · rename_i limit hlim
        split
        · exact ih taken perCat htrack hbound c k hck
        · rename_i hroom
          refine ih (taken ++ [p]) _ htrack' ?_ c k hck
          intro c' k' hck'
          simp only [bump]
          by_cases hc' : c' = p.category
          · subst hc'
            rw [hck'] at hlim
            injection hlim with hk'
            rw [if_pos rfl]
            omega
          · rw [if_neg hc']
            exact hbound c' k' hck'
      · rename_i hnone
        refine ih (taken ++ [p]) _ htrack' ?_ c k hck
        intro c' k' hck'
        simp only [bump]
        by_cases hc' : c' = p.category
        · subst hc'
          rw [hck'] at hnone
          exact absurd hnone (Option.some_ne_none k')
        · rw [if_neg hc']
          exact hbound c' k' hck'

/-- C2: the greedy acceptance walk of `infer_batch_prepared` never lets a
category with a configured cap exceed that cap, never returns more than the
global hard cap in total, and the global hard cap equals the sum of the
configured per-category caps when at least one cap is configured and 100
when none is configured. -/
theorem selectTags_caps :
    ∀ (labels : List TagMeta) (scores : List ℚ)
      (th : TagCategory → Option ℚ) (caps : TagCategory → Option ℕ),
      (∀ c k, caps c = some k → countCat c (selectTags labels scores th caps) ≤ k) ∧
      (selectTags labels scores th caps).length ≤ hardCap caps ∧
      hardCap caps = (if capsConfigured caps then capsSum caps else 100) := by
  intro labels scores th caps
  refine ⟨?_, ?_, rfl⟩
  · intro c k hck
    exact takeLoop_countCat_le caps (hardCap caps) _ [] (fun _ => 0)
      (fun _ => rfl) (fun _ _ _ => Nat.zero_le _) c k hck
  · exact takeLoop_length_le caps (hardCap caps) _ [] (fun _ => 0)
      (Nat.zero_le _)

/-- Witness for C2 at a concrete input: General cap 1, Character cap 1,
three qualifying candidates (two general outscoring one character). -/
theorem selectTags_caps_witness :
    countCat TagCategory.general
      (selectTags
        [⟨"a", .general, none, []⟩, ⟨"b", .general, none, []⟩,
         ⟨"c", .character, none, []⟩]
        [9/10, 8/10, 7/10]
        (fun _ => none)
        (fun c => if c = .general ∨ c = .character then some 1 else none)) ≤ 1 ∧
    (selectTags
        [⟨"a", .general, none, []⟩, ⟨"b", .general, none, []⟩,
         ⟨"c", .character, none, []⟩]
        [9/10, 8/10, 7/10]
        (fun _ => none)
        (fun c => if c = .general ∨ c = .character then some 1 else none)).length ≤
      hardCap (fun c => if c = .general ∨ c = .character then some 1 else none) := by
  refine ⟨?_, ?_⟩
  · exact (selectTags_caps _ _ _ _).1 TagCategory.general 1 (by decide)
  · exact (selectTags_caps _ _ _ _).2.1

lemma mem_insertBy (le : α → α → Bool) (x z : α) :
    ∀ l, z ∈ insertBy le x l ↔ z = x ∨ z ∈ l := by
  intro l
  induction l with
  | nil => simp [insertBy]
  | cons y ys ih =>
    unfold insertBy
    split
    · simp
    · simp only [List.mem_cons, ih]
      tauto

lemma pairwise_insertBy (le : α → α → Bool)
    (htot : ∀ a b, le a b = true ∨ le b a = true)
    (htrans : ∀ a b c, le a b = true → le b c = true → le a c = true)
    (x : α) :
    ∀ l, l.Pairwise (fun a b => le a b = true) →
      (insertBy le x l).Pairwise (fun a b => le a b = true) := by
  intro l
  induction l with
  | nil => intro _; simp [insertBy]
  | cons y ys ih =>
    intro hp
    rw [List.pairwise_cons] at hp
    obtain ⟨hy, hys⟩ := hp
    unfold insertBy
    split
    · rename_i hxy
      rw [List.pairwise_cons]
      refine ⟨?_, List.pairwise_cons.mpr ⟨hy, hys⟩⟩
      intro z hz
      rcases List.mem_cons.mp hz with hz | hz
      · subst hz; exact hxy
      · exact htrans x y z hxy (hy z hz)
    · rename_i hxy
      have hyx : le y x = true := by
        rcases htot x y with h | h
        · exact absurd h hxy
        · exact h
      rw [List.pairwise_cons]
      refine ⟨?_, ih hys⟩
      intro z hz
      rcases (mem_insertBy le x z ys).mp hz with hz | hz
      · subst hz; exact hyx
      · exact hy z hz

lemma pairwise_sortBy (le : α → α → Bool)
    (htot : ∀ a b, le a b = true ∨ le b a = true)
    (htrans : ∀ a b c, le a b = true → le b c = true → le a c = true) :
    ∀ l : List α, (sortBy le l).Pairwise (fun a b => le a b = true) := by
  intro l
  induction l with
  | nil => simp [sortBy]
  | cons x xs ih => exact pairwise_insertBy le htot htrans x _ ih

lemma predLE_total : ∀ a b, predLE a b = true ∨ predLE b a = true := by
  intro a b
  simp only [predLE, decide_eq_true_eq]
  rcases lt_trichotomy a.score b.score with h | h | h
  · right; left; exact h
  · rcases le_total a.name b.name with hn | hn
    · left; right; exact ⟨h, hn⟩
    · right; right; exact ⟨h.symm, hn⟩
  · left; left; exact h

lemma predLE_trans :
    ∀ a b c, predLE a b = true → predLE b c = true → predLE a c = true := by
  intro a b c
  simp only [predLE, decide_eq_true_eq]
  rintro (h1 | ⟨h1s, h1n⟩) (h2 | ⟨h2s, h2n⟩)
  · left; exact lt_trans h2 h1
  · left; rw [← h2s]; exact h1
  · left; rw [h1s]; exact h2
  · right; exact ⟨h1s.trans h2s, le_trans h1n h2n⟩

lemma takeLoop_sublist (caps : TagCategory → Option ℕ) (hcap : ℕ) :
    ∀ (l taken : List TagPrediction) (perCat : TagCategory → ℕ),
      ∃ s, takeLoop caps hcap l taken perCat = taken ++ s ∧ s.Sublist l := by
  intro l
  induction l with
  | nil =>
    intro taken perCat
    exact ⟨[], by simp [takeLoop], List.Sublist.refl []⟩
  | cons p rest ih =>
    intro taken perCat
    unfold takeLoop
    split
    · exact ⟨[], by simp, List.nil_sublist _⟩
    · split
      · split
        · obtain ⟨s, hs, hsub⟩ := ih taken perCat
          exact ⟨s, hs, hsub.cons p⟩
        · obtain ⟨s, hs, hsub⟩ := ih (taken ++ [p]) (bump perCat p.category)
          refine ⟨p :: s, ?_, hsub.cons₂ p⟩
          rw [hs, List.append_assoc, List.singleton_append]
      · obtain ⟨s, hs, hsub⟩ := ih (taken ++ [p]) (bump perCat p.category)
        refine ⟨p :: s, ?_, hsub.cons₂ p⟩
        rw [hs, List.append_assoc, List.singleton_append]

/-- C4: the Tag Selector is deterministic (identical results for identical
inputs), and its output is ordered by strictly descending score with ties
between equal scores broken by ascending tag name, being a subsequence of
the total `(-score, name)` ordering of the surviving candidates. -/
theorem selectTags_deterministic_ordered :
    ∀ (labels : List TagMeta) (scores : List ℚ)
      (th : TagCategory → Option ℚ) (caps : TagCategory → Option ℕ),
      selectTags labels scores th caps = selectTags labels scores th caps ∧
      (selectTags labels scores th caps).Pairwise
        (fun a b => b.score < a.score ∨ (a.score = b.score ∧ a.name ≤ b.name)) ∧
      (selectTags labels scores th caps).Sublist
        (sortBy predLE (rawPredictions labels scores th)) := by
  intro labels scores th caps
  have hsub : (selectTags labels scores th caps).Sublist
      (sortBy predLE (rawPredictions labels scores th)) := by
    obtain ⟨s, hs, hsubl⟩ := takeLoop_sublist caps (hardCap caps)
      (sortBy predLE (rawPredictions labels scores th)) [] (fun _ => 0)
    unfold selectTags
    rw [hs, List.nil_append]
    exact hsubl
  refine ⟨rfl, ?_, hsub⟩
  have hsorted := pairwise_sortBy predLE predLE_total predLE_trans
    (rawPredictions labels scores th)
  have := List.Pairwise.sublist hsub hsorted
  exact this.imp fun h => of_decide_eq_true h

/-- `tag_meta_lookup = {tag.name: tag for tag in self.tags}`: a dict
comprehension where a later row with the same name wins. -/
def tagMetaLookup (labels : List TagMeta) (name : String) : Option TagMeta :=
  labels.foldl (fun acc t => if t.name = name then some t else acc) none

/-- Sort key of `character_tags.sort(key=lambda pred: pred.score, reverse=True)`:
`a` may precede `b` iff `b.score ≤ a.score` (stable for ties). -/
def scoreDescLE (a b : TagPrediction) : Bool :=
  decide (b.score ≤ a.score)

/-- `general_tags` partition of `filter_tags_by_solo_rule` (line 436). -/
def generalTagsOf (tags : List TagPrediction) : List TagPrediction :=
  tags.filter fun p => decide (p.category = TagCategory.general)

/-- `character_tags` partition of `filter_tags_by_solo_rule` (line 437). -/
def characterTagsOf (tags : List TagPrediction) : List TagPrediction :=
  tags.filter fun p => decide (p.category = TagCategory.character)

/-- Python's `str.lower()`, embedded as a per-character lowercase map. -/
def lowerStr (s : String) : String :=
  String.mk (s.data.map Char.toLower)

/-- `solo_tag_found = any(pred.name.lower() == "solo" for pred in general_tags)`. -/
def soloFoundIn (general : List TagPrediction) : Bool :=
  general.any fun p => lowerStr p.name == "solo"

/-- Series tags harvested from one character name:
`char_meta = tag_meta_lookup.get(name); if char_meta and char_meta.ips: update(ips)`. -/
def seriesOfName (labels : List TagMeta) (name : String) : Finset String :=
  match tagMetaLookup labels name with
  | some m => if m.ips ≠ [] then m.ips.toFinset else ∅
  | none => ∅

/-- The series-tag accumulation of the non-solo branch of
`filter_tags_by_solo_rule` (lines 456-459). -/
def seriesUnion (labels : List TagMeta) (chars : List TagPrediction) : Finset String :=
  chars.foldl
    (fun s p =>
      match tagMetaLookup labels p.name with
      | some m => if m.ips ≠ [] then s ∪ m.ips.toFinset else s
      | none => s)
    ∅

/-- `filter_tags_by_solo_rule` from src/tagging_core.py (lines 426-463):
when the solo limit is enabled, a general tag lowercasing to "solo" exists
and at least one character tag exists, keep only the best character tag
(stable descending sort by score, then index 0) and its series ids;
otherwise keep all character tags and the union of their series ids. -/
def filterTagsBySoloRule (tags : List TagPrediction) (labels : List TagMeta)
    (enableSoloLimit : Bool) : List TagPrediction × Finset String :=
  if enableSoloLimit = true ∧ soloFoundIn (generalTagsOf tags) = true ∧
      characterTagsOf tags ≠ [] then
    (generalTagsOf tags ++ [(sortBy scoreDescLE (characterTagsOf tags)).headI],
     seriesOfName labels ((sortBy scoreDescLE (characterTagsOf tags)).headI).name)
  else
    (generalTagsOf tags ++ characterTagsOf tags,
     seriesUnion labels (characterTagsOf tags))

/-- One step of Python's first-maximum scan: replace the running best only
on a strictly greater score (so the first of equal scores is kept). -/
def stepMax (b p : TagPrediction) : TagPrediction :=
  if b.score < p.score then p else b

lemma foldl_stepMax_le :
    ∀ (xs : List TagPrediction) (b : TagPrediction),
      b.score ≤ (xs.foldl stepMax b).score ∧
      ∀ p ∈ xs, p.score ≤ (xs.foldl stepMax b).score := by
  intro xs
  induction xs with
  | nil => intro b; exact ⟨le_refl _, by simp⟩
  | cons y ys ih =>
    intro b
    simp only [List.foldl_cons]
    obtain ⟨h1, h2⟩ := ih (stepMax b y)
    have hb : b.score ≤ (stepMax b y).score := by
      unfold stepMax
      split
      · rename_i h; exact le_of_lt h
      · exact le_refl _
    have hy : y.score ≤ (stepMax b y).score := by
      unfold stepMax
      split
      · exact le_refl _
      · rename_i h; exact not_lt.mp h
    refine ⟨le_trans hb h1, ?_⟩
    intro p hp
    rcases List.mem_cons.mp hp with hp | hp
    · subst hp; exact le_trans hy h1
    · exact h2 p hp

lemma foldl_stepMax_decomp :
    ∀ (xs : List TagPrediction) (b : TagPrediction),
      ∃ l₁ l₂, b :: xs = l₁ ++ (xs.foldl stepMax b) :: l₂ ∧
        ∀ p ∈ l₁, p.score < (xs.foldl stepMax b).score := by
  intro xs
  induction xs with
  | nil => intro b; exact ⟨[], [], rfl, by simp⟩
  | cons y ys ih =>
    intro b
    simp only [List.foldl_cons]
    by_cases hb : b.score < y.score
    · have hstep : stepMax b y = y := if_pos hb
      rw [hstep]
      obtain ⟨l₁, l₂, hdec, hlt⟩ := ih y
      refine ⟨b :: l₁, l₂, by rw [List.cons_append, ← hdec], ?_⟩
      intro p hp
      rcases List.mem_cons.mp hp with hp | hp
      · subst hp
        exact lt_of_lt_of_le hb (foldl_stepMax_le ys y).1
      · exact hlt p hp
    · have hstep : stepMax b y = b := if_neg hb
      rw [hstep]
      obtain ⟨l₁, l₂, hdec, hlt⟩ := ih b
      cases l₁ with
      | nil =>
        simp only [List.nil_append] at hdec
        have hfold : ys.foldl stepMax b = b := (List.cons_eq_cons.mp hdec).1.symm
        have hl₂ : l₂ = ys := (List.cons_eq_cons.mp hdec).2.symm
        refine ⟨[], y :: ys, ?_, by simp⟩
        rw [hfold, List.nil_append]
      | cons c l₁' =>
        rw [List.cons_append, List.cons_eq_cons] at hdec
        obtain ⟨hcb, hys⟩ := hdec
        subst hcb
        refine ⟨b :: y :: l₁', l₂, ?_, ?_⟩
        · rw [List.cons_append, List.cons_append, ← hys]
        · intro p hp
          have hbstrict : b.score < (ys.foldl stepMax b).score :=
            hlt b (List.mem_cons_self b l₁')
          rcases List.mem_cons.mp hp with hp | hp
          · subst hp; exact hbstrict
          · rcases List.mem_cons.mp hp with hp | hp
            · subst hp
              exact lt_of_le_of_lt (not_lt.mp hb) hbstrict
            · exact hlt p (List.mem_cons_of_mem b hp)

lemma foldl_stepMax_cons :
    ∀ (ys : List TagPrediction) (x y : TagPrediction),
      List.foldl stepMax x (y :: ys) =
        if x.score < (List.foldl stepMax y ys).score
        then List.foldl stepMax y ys else x := by
  intro ys
  induction ys with
  | nil =>
    intro x y
    simp only [List.foldl_cons, List.foldl_nil]
    rfl
  | cons z zs ih =>
    intro x y
    have hxy : List.foldl stepMax x (y :: z :: zs) =
        List.foldl stepMax (stepMax x y) (z :: zs) := rfl
    rw [hxy, ih (stepMax x y) z, ih y z]
    set M := List.foldl stepMax z zs with hM
    by_cases h1 : x.score < y.score
    · have hst : stepMax x y = y := if_pos h1
      rw [hst]
      by_cases h2 : y.score < M.score
      · rw [if_pos h2, if_pos (lt_trans h1 h2)]
      · rw [if_neg h2, if_pos h1]
    · have hst : stepMax x y = x := if_neg h1
      rw [hst]
      by_cases h2 : y.score < M.score
      · rw [if_pos h2]
      · rw [if_neg h2]
        have h3 : ¬ x.score < M.score :=
          not_lt.mpr (le_trans (not_lt.mp h2) (not_lt.mp h1))
        rw [if_neg h3, if_neg h1]

lemma headI_insertBy [Inhabited α] (le : α → α → Bool) (x h : α) (t : List α) :
    (insertBy le x (h :: t)).headI = if le x h = true then x else h := by
  unfold insertBy
  by_cases hc : le x h = true
  · rw [if_pos hc, if_pos hc]
    rfl
  · rw [if_neg hc, if_neg hc]
    rfl

lemma sortBy_cons_ne_nil (le : α → α → Bool) (x : α) (xs : List α) :
    sortBy le (x :: xs) ≠ [] := by
  show insertBy le x (sortBy le xs) ≠ []
  cases hS : sortBy le xs with
  | nil => simp [insertBy]
  | cons h t =>
    unfold insertBy
    split <;> simp

lemma headI_sortBy_scoreDesc :
    ∀ (xs : List TagPrediction) (x : TagPrediction),
      (sortBy scoreDescLE (x :: xs)).headI = List.foldl stepMax x xs := by
  intro xs
  induction xs with
  | nil => intro x; rfl
  | cons y ys ih =>
    intro x
    have hne : sortBy scoreDescLE (y :: ys) ≠ [] := sortBy_cons_ne_nil _ y ys
    obtain ⟨h, t, hS⟩ := List.exists_cons_of_ne_nil hne
    have hh : h = List.foldl stepMax y ys := by
      have h2 := ih y
      rw [hS] at h2
      simpa using h2
    show (insertBy scoreDescLE x (sortBy scoreDescLE (y :: ys))).headI = _
    rw [hS, headI_insertBy, foldl_stepMax_cons ys x y, ← hh]
    by_cases hx : scoreDescLE x h = true
    · rw [if_pos hx]
      have hle : h.score ≤ x.score := of_decide_eq_true hx
      rw [if_neg (not_lt.mpr hle)]
    · rw [if_neg hx]
      have hgt : ¬ h.score ≤ x.score := fun hc => hx (decide_eq_true hc)
      rw [if_pos (not_le.mp hgt)]

lemma mem_seriesOfName (labels : List TagMeta) (name : String) (x : String) :
    x ∈ seriesOfName labels name ↔
      ∃ m, tagMetaLookup labels name = some m ∧ x ∈ m.ips := by
  unfold seriesOfName
  cases h : tagMetaLookup labels name with
  | none => simp
  | some m =>
    by_cases hips : m.ips = []
    · simp [hips]
    · simp [hips, List.mem_toFinset]

lemma mem_seriesUnion_foldl (labels : List TagMeta) :
    ∀ (chars : List TagPrediction) (s : Finset String) (x : String),
      (x ∈ chars.foldl
        (fun s p =>
          match tagMetaLookup labels p.name with
          | some m => if m.ips ≠ [] then s ∪ m.ips.toFinset else s
          | none => s) s) ↔
      x ∈ s ∨ ∃ p ∈ chars, x ∈ seriesOfName labels p.name := by
  intro chars
  induction chars with
  | nil => simp
  | cons c cs ih =>
    intro s x
    simp only [List.foldl_cons]
    rw [ih]
    have hstep : (match tagMetaLookup labels c.name with
        | some m => if m.ips ≠ [] then s ∪ m.ips.toFinset else s
        | none => s) = s ∪ seriesOfName labels c.name := by
      unfold seriesOfName
      cases tagMetaLookup labels c.name with
      | none => simp
      | some m =>
        by_cases hips : m.ips = []
        · simp [hips]
        · simp [hips]
    rw [hstep]
    constructor
    · rintro (h | ⟨p, hp, hx⟩)
      · rcases Finset.mem_union.mp h with h | h
        · exact Or.inl h
        · exact Or.inr ⟨c, List.mem_cons_self c cs, h⟩
      · exact Or.inr ⟨p, List.mem_cons_of_mem c hp, hx⟩
    · rintro (h | ⟨p, hp, hx⟩)
      · exact Or.inl (Finset.mem_union_left _ h)
      · rcases List.mem_cons.mp hp with hp | hp
        · subst hp
          exact Or.inl (Finset.mem_union_right _ hx)
        · exact Or.inr ⟨p, hp, hx⟩

lemma mem_seriesUnion (labels : List TagMeta) (chars : List TagPrediction)
    (x : String) :
    x ∈ seriesUnion labels chars ↔
      ∃ p ∈ chars, ∃ m, tagMetaLookup labels p.name = some m ∧ x ∈ m.ips := by
  unfold seriesUnion
  rw [mem_seriesUnion_foldl]
  simp [mem_seriesOfName]

/-- C3: with the solo limit enabled, a general tag named "solo"
(case-insensitively) present and at least one character tag present,
`filter_tags_by_solo_rule` returns the general tags unchanged plus exactly
the highest-scoring character tag (first encountered among equal scores),
with the series set being exactly that character's series ids from the
label table; in every other case it returns all character tags unchanged
and the union of the kept characters' series ids. -/
theorem filter_tags_by_solo_rule_spec :
    ∀ (tags : List TagPrediction) (labels : List TagMeta) (enable : Bool),
      (enable = true →
        (∃ p ∈ generalTagsOf tags, lowerStr p.name = "solo") →
        characterTagsOf tags ≠ [] →
        ∃ best l₁ l₂,
          (filterTagsBySoloRule tags labels enable).1 =
            generalTagsOf tags ++ [best] ∧
          (∀ x, x ∈ (filterTagsBySoloRule tags labels enable).2 ↔
            ∃ m, tagMetaLookup labels best.name = some m ∧ x ∈ m.ips) ∧
          characterTagsOf tags = l₁ ++ best :: l₂ ∧
          (∀ p ∈ l₁, p.score < best.score) ∧
          (∀ p ∈ characterTagsOf tags, p.score ≤ best.score)) ∧
      ((enable = false ∨ (∀ p ∈ generalTagsOf tags, lowerStr p.name ≠ "solo") ∨
          characterTagsOf tags = []) →
        (filterTagsBySoloRule tags labels enable).1 =
          generalTagsOf tags ++ characterTagsOf tags ∧
        (∀ x, x ∈ (filterTagsBySoloRule tags labels enable).2 ↔
          ∃ p ∈ characterTagsOf tags,
            ∃ m, tagMetaLookup labels p.name = some m ∧ x ∈ m.ips)) := by
  intro tags labels enable
  constructor
  · intro hen hsolo hch
    have hcond : enable = true ∧ soloFoundIn (generalTagsOf tags) = true ∧
        characterTagsOf tags ≠ [] := by
      refine ⟨hen, ?_, hch⟩
      obtain ⟨p, hp, hps⟩ := hsolo
      unfold soloFoundIn
      exact List.any_eq_true.mpr ⟨p, hp, by simp [hps]⟩
    obtain ⟨c, cs, hC⟩ := List.exists_cons_of_ne_nil hch
    have hbest : (sortBy scoreDescLE (characterTagsOf tags)).headI =
        List.foldl stepMax c cs := by
      rw [hC]
      exact headI_sortBy_scoreDesc cs c
    obtain ⟨l₁, l₂, hdec, hstrict⟩ := foldl_stepMax_decomp cs c
    have hmax : ∀ p ∈ characterTagsOf tags,
        p.score ≤ (List.foldl stepMax c cs).score := by
      rw [hC]
      intro p hp
      rcases List.mem_cons.mp hp with hp | hp
      · rw [hp]
        exact (foldl_stepMax_le cs c).1
      · exact (foldl_stepMax_le cs c).2 p hp
    refine ⟨List.foldl stepMax c cs, l₁, l₂, ?_, ?_, ?_, hstrict, hmax⟩
    · unfold filterTagsBySoloRule
      rw [if_pos hcond, hbest]
    · intro x
      unfold filterTagsBySoloRule
      rw [if_pos hcond]
      simp only
      rw [hbest]
      exact mem_seriesOfName labels (List.foldl stepMax c cs).name x
    · rw [hC]
      exact hdec
  · intro hother
    have hcond : ¬(enable = true ∧ soloFoundIn (generalTagsOf tags) = true ∧
        characterTagsOf tags ≠ []) := by
      rcases hother with h | h | h
      · rintro ⟨h1, -, -⟩
        rw [h] at h1
        exact Bool.false_ne_true h1
      · rintro ⟨-, h2, -⟩
        unfold soloFoundIn at h2
        obtain ⟨p, hp, hps⟩ := List.any_eq_true.mp h2
        exact h p hp (by simpa using hps)
      · rintro ⟨-, -, h3⟩
        exact h3 h
    unfold filterTagsBySoloRule
    rw [if_neg hcond]
    refine ⟨rfl, ?_⟩
    intro x
    simp only
    exact mem_seriesUnion labels (characterTagsOf tags) x

/-- Witness for C3: solo enabled, general "solo" present, characters
"alice" (score 2, series "wonderland") and "bob" (score 1). -/
theorem filter_tags_by_solo_rule_witness :
    ∃ best l₁ l₂,
      (filterTagsBySoloRule
        [⟨"solo", 3, .general⟩, ⟨"alice", 2, .character⟩,
         ⟨"bob", 1, .character⟩]
        [⟨"alice", .character, none, ["wonderland"]⟩] true).1 =
        generalTagsOf
          [⟨"solo", 3, .general⟩, ⟨"alice", 2, .character⟩,
           ⟨"bob", 1, .character⟩] ++ [best] ∧
      (∀ x, x ∈ (filterTagsBySoloRule
        [⟨"solo", 3, .general⟩, ⟨"alice", 2, .character⟩,
         ⟨"bob", 1, .character⟩]
        [⟨"alice", .character, none, ["wonderland"]⟩] true).2 ↔
        ∃ m, tagMetaLookup [⟨"alice", .character, none, ["wonderland"]⟩]
          best.name = some m ∧ x ∈ m.ips) ∧
      characterTagsOf
        [⟨"solo", 3, .general⟩, ⟨"alice", 2, .character⟩,
         ⟨"bob", 1, .character⟩] = l₁ ++ best :: l₂ ∧
      (∀ p ∈ l₁, p.score < best.score) ∧
      (∀ p ∈ characterTagsOf
        [⟨"solo", 3, .general⟩, ⟨"alice", 2, .character⟩,
         ⟨"bob", 1, .character⟩], p.score ≤ best.score) := by
  refine (filter_tags_by_solo_rule_spec _ _ true).1 rfl
    ⟨⟨"solo", 3, .general⟩, ?_, ?_⟩ ?_
  · have h : generalTagsOf
        [⟨"solo", 3, .general⟩, ⟨"alice", 2, .character⟩,
         ⟨"bob", 1, .character⟩] =
        [⟨"solo", 3, .general⟩] := rfl
    rw [h]
    exact List.mem_cons_self _ _
  · rfl
  · have h : characterTagsOf
        [⟨"solo", 3, .general⟩, ⟨"alice", 2, .character⟩,
         ⟨"bob", 1, .character⟩] =
        [⟨"alice", 2, .character⟩, ⟨"bob", 1, .character⟩] := rfl
    rw [h]
    exact List.cons_ne_nil _ _

/-- Whitespace characters stripped by Python's `str.strip()`
(space, tab, newline, vertical tab, form feed, carriage return). -/
def isWS (c : Char) : Bool :=
  c.toNat == 32 || c.toNat == 9 || c.toNat == 10 || c.toNat == 11 ||
  c.toNat == 12 || c.toNat == 13

/-- Python's `str.strip()` on a character list: drop whitespace from both ends. -/
def trimChars (l : List Char) : List Char :=
  ((l.dropWhile isWS).reverse.dropWhile isWS).reverse

/-- Python's `str.split(',')`: always at least one field, empty fields kept. -/
def splitComma : List Char → List (List Char)
  | [] => [[]]
  | c :: cs =>
    if c = ',' then [] :: splitComma cs
    else
      match splitComma cs with
      | [] => [[c]]
      | t :: ts => (c :: t) :: ts

/-- Python's `", ".join(tags)`. -/
def joinCS : List (List Char) → List Char
  | [] => []
  | [t] => t
  | t :: u :: rest => t ++ ',' :: ' ' :: joinCS (u :: rest)

/-- The filesystem: a partial map from paths to text-file contents. -/
def FSt (P : Type) : Type := P → Option (List Char)

/-- Writing file `p` (creating or overwriting). -/
def fsUpdate [DecidableEq P] (fs : FSt P) (p : P) (content : List Char) : FSt P :=
  fun q => if q = p then some content else fs q

/-- `read_tags` from src/tag_utils.py (lines 8-20): empty when the file is
absent or blank; otherwise comma-split, trimmed, empties dropped. -/
def read_tags [DecidableEq P] (fs : FSt P) (p : P) : List (List Char) :=
  match fs p with
  | none => []
  | some text =>
    if trimChars text = [] then []
    else ((splitComma (trimChars text)).map trimChars).filter
      fun t => decide (t ≠ [])

/-- `write_tags` from src/tag_utils.py (lines 22-29): overwrite with
`', '.join(tags)`. -/
def write_tags [DecidableEq P] (fs : FSt P) (p : P) (tags : List (List Char)) :
    FSt P :=
  fsUpdate fs p (joinCS tags)

/-- The accumulation loop of `add_tags_to_file`: append each tag not
already present, tracking whether anything was added. -/
def addLoop (existing : List (List Char)) (added : Bool) :
    List (List Char) → List (List Char) × Bool
  | [] => (existing, added)
  | t :: ts =>
    if t ∈ existing then addLoop existing added ts
    else addLoop (existing ++ [t]) true ts

/-- `add_tags_to_file` from src/tag_utils.py (lines 31-42): read, append the
genuinely new tags, and write back only when something was added. -/
def add_tags_to_file [DecidableEq P] (fs : FSt P) (p : P)
    (tagsToAdd : List (List Char)) : Bool × FSt P :=
  if (addLoop (read_tags fs p) false tagsToAdd).2 = true
  then (true, write_tags fs p (addLoop (read_tags fs p) false tagsToAdd).1)
  else (false, fs)

/-- A tag the C8 round-trip claim quantifies over: non-empty, comma-free,
no leading or trailing whitespace. -/
def goodTag (t : List Char) : Prop :=
  t ≠ [] ∧ ',' ∉ t ∧
  (t.head?.all fun c => !isWS c) = true ∧
  (t.getLast?.all fun c => !isWS c) = true

instance (t : List Char) : Decidable (goodTag t) := by
  unfold goodTag
  infer_instance

lemma goodTag_head {t : List Char} (hg : goodTag t) :
    ∀ c, t.head? = some c → isWS c = false := by
  intro c hc
  have h := hg.2.2.1
  rw [hc] at h
  simpa using h

lemma goodTag_last {t : List Char} (hg : goodTag t) :
    ∀ c, t.getLast? = some c → isWS c = false := by
  intro c hc
  have h := hg.2.2.2
  rw [hc] at h
  simpa using h

lemma dropWhile_isWS_eq_self (l : List Char)
    (h : ∀ c, l.head? = some c → isWS c = false) :
    l.dropWhile isWS = l := by
  cases l with
  | nil => rfl
  | cons c cs =>
    have hc := h c rfl
    simp [List.dropWhile_cons, hc]

lemma trimChars_eq_self (t : List Char)
    (hhead : ∀ c, t.head? = some c → isWS c = false)
    (hlast : ∀ c, t.getLast? = some c → isWS c = false) :
    trimChars t = t := by
  unfold trimChars
  rw [dropWhile_isWS_eq_self t hhead]
  rw [dropWhile_isWS_eq_self t.reverse ?hrev]
  · exact List.reverse_reverse t
  · intro c hc
    rw [List.head?_reverse] at hc
    exact hlast c hc

lemma trimChars_cons_space (u : List Char) :
    trimChars (' ' :: u) = trimChars u := by
  unfold trimChars
  rw [List.dropWhile_cons]
  simp [isWS]

lemma joinCS_ne_nil (t : List Char) (rest : List (List Char)) (ht : t ≠ []) :
    joinCS (t :: rest) ≠ [] := by
  cases rest with
  | nil => exact ht
  | cons u us =>
    show t ++ ',' :: ' ' :: joinCS (u :: us) ≠ []
    simp

lemma head?_joinCS (t : List Char) (rest : List (List Char)) (ht : t ≠ []) :
    (joinCS (t :: rest)).head? = t.head? := by
  cases rest with
  | nil => rfl
  | cons u us =>
    show (t ++ ',' :: ' ' :: joinCS (u :: us)).head? = t.head?
    cases t with
    | nil => exact absurd rfl ht
    | cons c cs => rfl

lemma getLast?_cons_ne_nil (c : Char) (l : List Char) (h : l ≠ []) :
    (c :: l).getLast? = l.getLast? := by
  cases l with
  | nil => exact absurd rfl h
  | cons x xs => exact List.getLast?_cons_cons

lemma getLast?_append_right (l₁ l₂ : List Char) (h : l₂ ≠ []) :
    (l₁ ++ l₂).getLast? = l₂.getLast? := by
  induction l₁ with
  | nil => rfl
  | cons c cs ih =>
    rw [List.cons_append,
      getLast?_cons_ne_nil c (cs ++ l₂)
        (fun hc => h (List.append_eq_nil.mp hc).2),
      ih]

lemma getLast?_joinCS_mem :
    ∀ (rest : List (List Char)) (t : List Char),
      (∀ x ∈ t :: rest, x ≠ []) →
      ∃ u ∈ t :: rest, (joinCS (t :: rest)).getLast? = u.getLast? := by
  intro rest
  induction rest with
  | nil =>
    intro t _
    exact ⟨t, List.mem_cons_self t [], rfl⟩
  | cons u us ih =>
    intro t h
    have hu : ∀ x ∈ u :: us, x ≠ [] :=
      fun x hx => h x (List.mem_cons_of_mem t hx)
    obtain ⟨v, hv, he⟩ := ih u hu
    refine ⟨v, List.mem_cons_of_mem t hv, ?_⟩
    show (t ++ ',' :: ' ' :: joinCS (u :: us)).getLast? = v.getLast?
    have hJ : joinCS (u :: us) ≠ [] :=
      joinCS_ne_nil u us (hu u (List.mem_cons_self u us))
    rw [getLast?_append_right _ _ (by simp),
      getLast?_cons_ne_nil ',' _ (by simp),
      getLast?_cons_ne_nil ' ' _ hJ, he]

lemma splitComma_no_comma (t : List Char) (h : ',' ∉ t) :
    splitComma t = [t] := by
  induction t with
  | nil => rfl
  | cons c cs ih =>
    have hc : ¬ c = ',' := fun hcc => h (hcc ▸ List.mem_cons_self c cs)
    unfold splitComma
    rw [if_neg hc, ih (fun hm => h (List.mem_cons_of_mem c hm))]

lemma splitComma_append_comma (t s : List Char) (h : ',' ∉ t) :
    splitComma (t ++ ',' :: s) = t :: splitComma s := by
  induction t with
  | nil =>
    show splitComma (',' :: s) = [] :: splitComma s
    conv_lhs => rw [splitComma]
    rw [if_pos rfl]
  | cons c cs ih =>
    have hc : ¬ c = ',' := fun hcc => h (hcc ▸ List.mem_cons_self c cs)
    show splitComma (c :: (cs ++ ',' :: s)) = (c :: cs) :: splitComma s
    conv_lhs => rw [splitComma]
    rw [if_neg hc, ih (fun hm => h (List.mem_cons_of_mem c hm))]

lemma splitComma_joinCS :
    ∀ (rest : List (List Char)) (t : List Char),
      (∀ x ∈ t :: rest, ',' ∉ x) →
      splitComma (joinCS (t :: rest)) = t :: rest.map (fun u => ' ' :: u) := by
  intro rest
  induction rest with
  | nil =>
    intro t h
    exact splitComma_no_comma t (h t (List.mem_cons_self t []))
  | cons u us ih =>
    intro t h
    show splitComma (t ++ ',' :: ' ' :: joinCS (u :: us)) =
      t :: (u :: us).map (fun u => ' ' :: u)
    rw [splitComma_append_comma _ _ (h t (List.mem_cons_self t _))]
    congr 1
    have hX := ih u (fun x hx => h x (List.mem_cons_of_mem t hx))
    show splitComma (' ' :: joinCS (u :: us)) =
      (' ' :: u) :: us.map (fun u => ' ' :: u)
    unfold splitComma
    rw [if_neg (by decide : ¬ (' ' = ',')), hX]

lemma goodTag_trim {t : List Char} (hg : goodTag t) : trimChars t = t :=
  trimChars_eq_self t (goodTag_head hg) (goodTag_last hg)

/-- C8: writing a list of tags that are non-empty, comma-free and free of
leading/trailing whitespace, then reading the same path, returns exactly
the written list in order. -/
theorem write_read_roundtrip {P : Type} [DecidableEq P] :
    ∀ (fs : FSt P) (p : P) (tags : List (List Char)),
      (∀ t ∈ tags, goodTag t) →
      read_tags (write_tags fs p tags) p = tags := by
  intro fs p tags hgood
  have hread : read_tags (write_tags fs p tags) p =
      (if trimChars (joinCS tags) = [] then []
       else ((splitComma (trimChars (joinCS tags))).map trimChars).filter
         fun t => decide (t ≠ [])) := by
    unfold write_tags fsUpdate
    conv_lhs => rw [read_tags]
    simp
  rw [hread]
  cases tags with
  | nil => rfl
  | cons t rest =>
    have hne : ∀ x ∈ t :: rest, x ≠ [] := fun x hx => (hgood x hx).1
    have hcomma : ∀ x ∈ t :: rest, ',' ∉ x := fun x hx => (hgood x hx).2.1
    have htnil : t ≠ [] := hne t (List.mem_cons_self t rest)
    have htrim : trimChars (joinCS (t :: rest)) = joinCS (t :: rest) := by
      apply trimChars_eq_self
      · intro c hc
        rw [head?_joinCS t rest htnil] at hc
        exact goodTag_head (hgood t (List.mem_cons_self t rest)) c hc
      · intro c hc
        obtain ⟨u, hu, he⟩ := getLast?_joinCS_mem rest t hne
        rw [he] at hc
        exact goodTag_last (hgood u hu) c hc
    rw [htrim, if_neg (joinCS_ne_nil t rest htnil),
      splitComma_joinCS rest t hcomma]
    simp only [List.map_cons, List.map_map]
    rw [goodTag_trim (hgood t (List.mem_cons_self t rest))]
    have hmap : rest.map (trimChars ∘ fun u => ' ' :: u) = rest := by
      have h1 : rest.map (trimChars ∘ fun u => ' ' :: u) = rest.map id := by
        apply List.map_congr_left
        intro u hu
        show trimChars (' ' :: u) = u
        rw [trimChars_cons_space]
        exact goodTag_trim (hgood u (List.mem_cons_of_mem t hu))
      rw [h1, List.map_id]
    rw [hmap]
    apply List.filter_eq_self.mpr
    intro x hx
    exact decide_eq_true (hne x hx)

/-- Witness for C8: write then read three one-letter tags. -/
theorem write_read_roundtrip_witness :
    (∀ t ∈ [['a'], ['b'], ['c']], goodTag t) ∧
    read_tags
      (write_tags (fun _ => (none : Option (List Char))) (0 : ℕ)
        [['a'], ['b'], ['c']]) 0 = [['a'], ['b'], ['c']] :=
  ⟨by decide,
   write_read_roundtrip (fun _ => none) 0 [['a'], ['b'], ['c']] (by decide)⟩

lemma addLoop_snd :
    ∀ (ts existing : List (List Char)) (added : Bool),
      (addLoop existing added ts).2 = true ↔
        added = true ∨ ∃ t ∈ ts, t ∉ existing := by
  intro ts
  induction ts with
  | nil =>
    intro e a
    simp [addLoop]
  | cons t ts ih =>
    intro e a
    unfold addLoop
    by_cases ht : t ∈ e
    · rw [if_pos ht, ih]
      constructor
      · rintro (h | ⟨u, hu, hne⟩)
        · exact Or.inl h
        · exact Or.inr ⟨u, List.mem_cons_of_mem t hu, hne⟩
      · rintro (h | ⟨u, hu, hne⟩)
        · exact Or.inl h
        · rcases List.mem_cons.mp hu with h' | h'
          · exact absurd (h' ▸ ht) hne
          · exact Or.inr ⟨u, h', hne⟩
    · rw [if_neg ht, ih]
      constructor
      · intro _
        exact Or.inr ⟨t, List.mem_cons_self t ts, ht⟩
      · intro _
        exact Or.inl rfl

/-- C10: when every tag to add already occurs in the file's tag list,
`add_tags_to_file` reports no change and leaves the filesystem untouched;
and it reports a change exactly when some tag was genuinely new. -/
theorem add_tags_to_file_frame {P : Type} [DecidableEq P] :
    ∀ (fs : FSt P) (p : P) (tagsToAdd : List (List Char)),
      ((∀ t ∈ tagsToAdd, t ∈ read_tags fs p) →
        add_tags_to_file fs p tagsToAdd = (false, fs)) ∧
      ((add_tags_to_file fs p tagsToAdd).1 = true ↔
        ∃ t ∈ tagsToAdd, t ∉ read_tags fs p) := by
  intro fs p ts
  have hsnd := addLoop_snd ts (read_tags fs p) false
  constructor
  · intro hall
    have hfalse : ¬ (addLoop (read_tags fs p) false ts).2 = true := by
      intro htrue
      rcases hsnd.mp htrue with h | ⟨u, hu, hnotin⟩
      · exact Bool.false_ne_true h
      · exact hnotin (hall u hu)
    unfold add_tags_to_file
    rw [if_neg hfalse]
  · unfold add_tags_to_file
    by_cases hb : (addLoop (read_tags fs p) false ts).2 = true
    · rw [if_pos hb]
      have hex : ∃ t ∈ ts, t ∉ read_tags fs p := by
        rcases hsnd.mp hb with h | h
        · exact absurd h Bool.false_ne_true
        · exact h
      exact iff_of_true rfl hex
    · rw [if_neg hb]
      constructor
      · intro h
        exact absurd h Bool.false_ne_true
      · intro hex
        exact absurd (hsnd.mpr (Or.inr hex)) hb

/-- Witness for C10: adding a tag already present changes nothing. -/
theorem add_tags_to_file_frame_witness :
    (∀ t ∈ [['a']], t ∈ read_tags
      (fun q => if q = (0 : ℕ) then some ['a'] else none) 0) ∧
    add_tags_to_file (fun q => if q = (0 : ℕ) then some ['a'] else none) 0
      [['a']] =
      (false, fun q => if q = (0 : ℕ) then some ['a'] else none) :=
  ⟨by decide,
   (add_tags_to_file_frame (fun q => if q = (0 : ℕ) then some ['a'] else none)
     0 [['a']]).1 (by decide)⟩

/-- State of `UndoManager` from src/undo_manager.py: two stacks (newest at
the end, as Python list append/pop) and the capacity. -/
structure UMState (α : Type) where
  undoStack : List α
  redoStack : List α
  maxHistory : ℕ
deriving DecidableEq, Repr

/-- `UndoManager.__init__`. -/
def initUM (α : Type) (m : ℕ) : UMState α := ⟨[], [], m⟩

/-- `UndoManager.push` (lines 378-394): append, clear the redo stack, then
pop the oldest undo entry when over capacity. -/
def umPush (a : α) (s : UMState α) : UMState α :=
  if s.maxHistory < (s.undoStack ++ [a]).length
  then ⟨(s.undoStack ++ [a]).drop 1, [], s.maxHistory⟩
  else ⟨s.undoStack ++ [a], [], s.maxHistory⟩

/-- `UndoManager.undo` (lines 404-424): pop the newest action, run its
inverse (modelled by the success oracle `runU`), move it to the redo stack
only on success. -/
def umUndo (runU : α → Bool) (s : UMState α) : Bool × UMState α :=
  match s.undoStack.getLast? with
  | none => (false, s)
  | some a =>
    if runU a
    then (true, ⟨s.undoStack.dropLast, s.redoStack ++ [a], s.maxHistory⟩)
    else (false, ⟨s.undoStack.dropLast, s.redoStack, s.maxHistory⟩)

/-- `UndoManager.redo` (lines 426-446): symmetric to `undo`. -/
def umRedo (runR : α → Bool) (s : UMState α) : Bool × UMState α :=
  match s.redoStack.getLast? with
  | none => (false, s)
  | some a =>
    if runR a
    then (true, ⟨s.undoStack ++ [a], s.redoStack.dropLast, s.maxHistory⟩)
    else (false, ⟨s.undoStack, s.redoStack.dropLast, s.maxHistory⟩)

/-- `UndoManager.clear` (lines 470-474). -/
def umClear (s : UMState α) : UMState α := ⟨[], [], s.maxHistory⟩

/-- One public operation of the `UndoManager`. -/
inductive UMOp (α : Type) where
  | push (a : α)
  | undo
  | redo
  | clear

/-- State effect of one operation (the returned booleans are dropped). -/
def applyOp (runU runR : α → Bool) : UMOp α → UMState α → UMState α
  | .push a, s => umPush a s
  | .undo, s => (umUndo runU s).2
  | .redo, s => (umRedo runR s).2
  | .clear, s => umClear s

/-- Run a sequence of operations. -/
def applyOps (runU runR : α → Bool) (s : UMState α) (ops : List (UMOp α)) :
    UMState α :=
  ops.foldl (fun s op => applyOp runU runR op s) s

/-- Push a list of actions in order. -/
def pushAll (l : List α) (s : UMState α) : UMState α :=
  l.foldl (fun s a => umPush a s) s

lemma umUndo_eq_nil (runU : α → Bool) (s : UMState α)
    (h : s.undoStack.getLast? = none) : umUndo runU s = (false, s) := by
  unfold umUndo
  rw [h]

lemma umUndo_eq_some (runU : α → Bool) (s : UMState α) (a : α)
    (h : s.undoStack.getLast? = some a) :
    umUndo runU s =
      if runU a
      then (true, ⟨s.undoStack.dropLast, s.redoStack ++ [a], s.maxHistory⟩)
      else (false, ⟨s.undoStack.dropLast, s.redoStack, s.maxHistory⟩) := by
  unfold umUndo
  rw [h]

lemma umRedo_eq_nil (runR : α → Bool) (s : UMState α)
    (h : s.redoStack.getLast? = none) : umRedo runR s = (false, s) := by
  unfold umRedo
  rw [h]

lemma umRedo_eq_some (runR : α → Bool) (s : UMState α) (a : α)
    (h : s.redoStack.getLast? = some a) :
    umRedo runR s =
      if runR a
      then (true, ⟨s.undoStack ++ [a], s.redoStack.dropLast, s.maxHistory⟩)
      else (false, ⟨s.undoStack, s.redoStack.dropLast, s.maxHistory⟩) := by
  unfold umRedo
  rw [h]

lemma applyOp_inv (runU runR : α → Bool) (op : UMOp α) (s : UMState α)
    (h : s.undoStack.length + s.redoStack.length ≤ s.maxHistory) :
    (applyOp runU runR op s).undoStack.length +
      (applyOp runU runR op s).redoStack.length ≤
      (applyOp runU runR op s).maxHistory ∧
    (applyOp runU runR op s).maxHistory = s.maxHistory := by
  cases op with
  | push a =>
    simp only [applyOp]
    unfold umPush
    split
    · rename_i hc
      simp only [List.length_append, List.length_singleton] at hc
      refine ⟨?_, rfl⟩
      simp only [List.length_drop, List.length_append, List.length_singleton,
        List.length_nil]
      omega
    · rename_i hc
      simp only [List.length_append, List.length_singleton] at hc
      refine ⟨?_, rfl⟩
      simp only [List.length_append, List.length_singleton, List.length_nil]
      omega
  | undo =>
    simp only [applyOp]
    cases hL : s.undoStack.getLast? with
    | none =>
      rw [umUndo_eq_nil runU s hL]
      exact ⟨h, rfl⟩
    | some a =>
      rw [umUndo_eq_some runU s a hL]
      have hlen : 1 ≤ s.undoStack.length := by
        cases hu : s.undoStack with
        | nil => rw [hu] at hL; simp at hL
        | cons x xs => simp
      by_cases hr : runU a = true
      · rw [if_pos hr]
        refine ⟨?_, rfl⟩
        simp only [List.length_dropLast, List.length_append,
          List.length_singleton]
        omega
      · rw [if_neg hr]
        refine ⟨?_, rfl⟩
        simp only [List.length_dropLast]
        omega
  | redo =>
    simp only [applyOp]
    cases hL : s.redoStack.getLast? with
    | none =>
      rw [umRedo_eq_nil runR s hL]
      exact ⟨h, rfl⟩
    | some a =>
      rw [umRedo_eq_some runR s a hL]
      have hlen : 1 ≤ s.redoStack.length := by
        cases hu : s.redoStack with
        | nil => rw [hu] at hL; simp at hL
        | cons x xs => simp
      by_cases hr : runR a = true
      · rw [if_pos hr]
        refine ⟨?_, rfl⟩
        simp only [List.length_dropLast, List.length_append,
          List.length_singleton]
        omega
      · rw [if_neg hr]
        refine ⟨?_, rfl⟩
        simp only [List.length_dropLast]
        omega
  | clear =>
    simp only [applyOp]
    refine ⟨?_, rfl⟩
    simp only [umClear, List.length_nil]
    omega

lemma applyOps_inv (runU runR : α → Bool) :
    ∀ (ops : List (UMOp α)) (s : UMState α),
      s.undoStack.length + s.redoStack.length ≤ s.maxHistory →
      (applyOps runU runR s ops).undoStack.length +
        (applyOps runU runR s ops).redoStack.length ≤
        (applyOps runU runR s ops).maxHistory ∧
      (applyOps runU runR s ops).maxHistory = s.maxHistory := by
  intro ops
  induction ops with
  | nil => intro s h; exact ⟨h, rfl⟩
  | cons op ops ih =>
    intro s h
    obtain ⟨h1, h2⟩ := applyOp_inv runU runR op s h
    obtain ⟨h3, h4⟩ := ih (applyOp runU runR op s) h1
    exact ⟨h3, h4.trans h2⟩

lemma pushAll_append_one (l : List α) (a : α) (s : UMState α) :
    pushAll (l ++ [a]) s = umPush a (pushAll l s) := by
  unfold pushAll
  rw [List.foldl_append]
  rfl

lemma pushAll_no_evict :
    ∀ (l : List α) (s : UMState α),
      s.redoStack = [] → s.undoStack.length + l.length ≤ s.maxHistory →
      pushAll l s = ⟨s.undoStack ++ l, [], s.maxHistory⟩ := by
  intro l
  induction l with
  | nil =>
    intro s hr hlen
    show s = _
    cases s with
    | mk u r m =>
      have hr' : r = [] := hr
      subst hr'
      simp
  | cons a l ih =>
    intro s hr hlen
    show pushAll l (umPush a s) = _
    simp only [List.length_cons] at hlen
    have hcond : ¬ s.maxHistory < (s.undoStack ++ [a]).length := by
      simp only [List.length_append, List.length_singleton]
      omega
    have hpush : umPush a s = ⟨s.undoStack ++ [a], [], s.maxHistory⟩ := by
      unfold umPush
      rw [if_neg hcond]
    rw [hpush, ih ⟨s.undoStack ++ [a], [], s.maxHistory⟩ rfl ?hlen2]
    · simp
    · simp only [List.length_append, List.length_singleton]
      omega

/-- C5: `push` clears the redo stack and appends the action; when the stack
was already at capacity exactly the oldest entry is evicted; the undo stack
never exceeds the capacity after any sequence of operations from a fresh
manager; pushing 51 actions with capacity 50 leaves exactly the 50 most
recent, oldest evicted. -/
theorem umPush_spec {α : Type} :
    (∀ (s : UMState α) (a : α),
      (umPush a s).redoStack = [] ∧
      (s.undoStack.length < s.maxHistory →
        (umPush a s).undoStack = s.undoStack ++ [a]) ∧
      (s.maxHistory ≤ s.undoStack.length →
        (umPush a s).undoStack = (s.undoStack ++ [a]).drop 1) ∧
      (s.undoStack.length ≤ s.maxHistory →
        (umPush a s).undoStack.length ≤ s.maxHistory)) ∧
    (∀ (m : ℕ) (runU runR : α → Bool) (ops : List (UMOp α)),
      (applyOps runU runR (initUM α m) ops).undoStack.length ≤ m) ∧
    (∀ l : List α, l.length = 51 →
      (pushAll l (initUM α 50)).undoStack = l.drop 1) := by
  refine ⟨?_, ?_, ?_⟩
  · intro s a
    refine ⟨?_, ?_, ?_, ?_⟩
    · unfold umPush
      split <;> rfl
    · intro h
      have hc : ¬ s.maxHistory < (s.undoStack ++ [a]).length := by
        simp only [List.length_append, List.length_singleton]
        omega
      unfold umPush
      rw [if_neg hc]
    · intro h
      have hc : s.maxHistory < (s.undoStack ++ [a]).length := by
        simp only [List.length_append, List.length_singleton]
        omega
      unfold umPush
      rw [if_pos hc]
    · intro h
      unfold umPush
      split
      · rename_i hc
        simp only [List.length_append, List.length_singleton] at hc
        simp only [List.length_drop, List.length_append, List.length_singleton]
        omega
      · rename_i hc
        simp only [List.length_append, List.length_singleton] at hc
        simp only [List.length_append, List.length_singleton]
        omega
  · intro m runU runR ops
    have h0 : (initUM α m).undoStack.length + (initUM α m).redoStack.length ≤
        (initUM α m).maxHistory := by
      simp [initUM]
    obtain ⟨h1, h2⟩ := applyOps_inv runU runR ops (initUM α m) h0
    have : (applyOps runU runR (initUM α m) ops).maxHistory = m := h2
    omega
  · intro l hlen
    have hne : l ≠ [] := by
      intro h
      rw [h] at hlen
      simp at hlen
    have hconcat : l.dropLast ++ [l.getLast hne] = l :=
      List.dropLast_append_getLast hne
    have hdl : l.dropLast.length = 50 := by
      rw [List.length_dropLast, hlen]
    conv_lhs => rw [← hconcat]
    conv_rhs => rw [← hconcat]
    rw [pushAll_append_one]
    have hpa : pushAll l.dropLast (initUM α 50) =
        ⟨([] : List α) ++ l.dropLast, [], 50⟩ := by
      apply pushAll_no_evict
      · rfl
      · simp [initUM, hdl]
    rw [hpa]
    have hc : (⟨([] : List α) ++ l.dropLast, [], 50⟩ : UMState α).maxHistory <
        ((⟨([] : List α) ++ l.dropLast, [], 50⟩ : UMState α).undoStack ++
          [l.getLast hne]).length := by
      simp [hdl]
    unfold umPush
    rw [if_pos hc]
    simp

/-- Witness for C5: a push at capacity evicts the oldest entry, and 51
pushes into a fresh capacity-50 manager keep the 50 most recent. -/
theorem umPush_spec_witness :
    (umPush 3 (⟨[1, 2], [9], 2⟩ : UMState ℕ)).undoStack = [2, 3] ∧
    (pushAll (List.range 51) (initUM ℕ 50)).undoStack =
      (List.range 51).drop 1 := by
  constructor
  · have h := ((@umPush_spec ℕ).1 ⟨[1, 2], [9], 2⟩ 3).2.2.1 (by decide)
    rw [h]
    rfl
  · exact (@umPush_spec ℕ).2.2 (List.range 51) (by simp)

/-- C6: with a non-empty undo stack, `undo` pops the newest action and runs
its inverse; on success the action moves to the redo stack and `undo`
returns true; on failure `undo` returns false and the action is on neither
stack; `redo` is symmetric with the forward operation. -/
theorem umUndo_umRedo_spec {α : Type} :
    ∀ (runU runR : α → Bool) (s : UMState α) (u : List α) (a : α),
      (s.undoStack = u ++ [a] →
        (runU a = true →
          umUndo runU s = (true, ⟨u, s.redoStack ++ [a], s.maxHistory⟩)) ∧
        (runU a = false →
          umUndo runU s = (false, ⟨u, s.redoStack, s.maxHistory⟩))) ∧
      (s.redoStack = u ++ [a] →
        (runR a = true →
          umRedo runR s = (true, ⟨s.undoStack ++ [a], u, s.maxHistory⟩)) ∧
        (runR a = false →
          umRedo runR s = (false, ⟨s.undoStack, u, s.maxHistory⟩))) := by
  intro runU runR s u a
  constructor
  · intro hu
    have hL : s.undoStack.getLast? = some a := by
      rw [hu]
      exact List.getLast?_concat u
    have hD : s.undoStack.dropLast = u := by
      rw [hu]
      exact List.dropLast_concat
    constructor
    · intro hr
      rw [umUndo_eq_some runU s a hL, if_pos hr, hD]
    · intro hr
      rw [umUndo_eq_some runU s a hL, if_neg (by simp [hr]), hD]
  · intro hrd
    have hL : s.redoStack.getLast? = some a := by
      rw [hrd]
      exact List.getLast?_concat u
    have hD : s.redoStack.dropLast = u := by
      rw [hrd]
      exact List.dropLast_concat
    constructor
    · intro hr
      rw [umRedo_eq_some runR s a hL, if_pos hr, hD]
    · intro hr
      rw [umRedo_eq_some runR s a hL, if_neg (by simp [hr]), hD]

/-- Witness for C6: undo success moves the action to the redo stack, undo
failure drops it from both stacks. -/
theorem umUndo_umRedo_spec_witness :
    umUndo (fun _ => true) (⟨[1, 2], [5], 7⟩ : UMState ℕ) =
      (true, ⟨[1], [5, 2], 7⟩) ∧
    umUndo (fun _ => false) (⟨[1, 2], [5], 7⟩ : UMState ℕ) =
      (false, ⟨[1], [5], 7⟩) := by
  constructor
  · exact ((umUndo_umRedo_spec (fun _ => true) (fun _ => true)
      ⟨[1, 2], [5], 7⟩ [1] 2).1 rfl).1 rfl
  · exact ((umUndo_umRedo_spec (fun _ => false) (fun _ => false)
      ⟨[1, 2], [5], 7⟩ [1] 2).1 rfl).2 rfl

/-- Python `list.remove`: drop the first occurrence. -/
def removeFirst [DecidableEq β] (a : β) : List β → List β
  | [] => []
  | x :: xs => if x = a then xs else x :: removeFirst a xs

/-- Python `list.insert` at an in-range index (callers clamp with `min`). -/
def insertAt (a : β) : ℕ → List β → List β
  | 0, l => a :: l
  | _ + 1, [] => [a]
  | n + 1, x :: xs => x :: insertAt a n xs

/-- The tag parsing shared by the undo actions in src/undo_manager.py:
`tags = [tag.strip() for tag in content.split(',')] if content else []`
applied to the already-stripped content (empties are kept, unlike
`tag_utils.read_tags`). -/
def umParseTags (content : List Char) : List (List Char) :=
  if trimChars content = [] then []
  else (splitComma (trimChars content)).map trimChars

/-- `BulkRemoveTagsAction.undo` body for one file (lines 295-315):
skip a missing file, otherwise reinsert the removed tag at
`min(original_index, len(tags))` and write back. -/
def bulkRemoveUndoFile [DecidableEq P] (tag : List Char) (item : P × ℕ)
    (fs : FSt P) : Option (FSt P) :=
  match fs item.1 with
  | none => none
  | some content =>
    some (fsUpdate fs item.1
      (joinCS (insertAt tag (min item.2 (umParseTags content).length)
        (umParseTags content))))

/-- `BulkRemoveTagsAction.redo` body for one file (lines 326-350):
skip a missing file, count a blank file as success without writing,
otherwise remove the first occurrence of the tag and write back. -/
def bulkRemoveRedoFile [DecidableEq P] (tag : List Char) (item : P × ℕ)
    (fs : FSt P) : Option (FSt P) :=
  match fs item.1 with
  | none => none
  | some content =>
    if trimChars content = [] then some fs
    else
      some (fsUpdate fs item.1
        (joinCS
          (if tag ∈ (splitComma (trimChars content)).map trimChars
           then removeFirst tag ((splitComma (trimChars content)).map trimChars)
           else (splitComma (trimChars content)).map trimChars)))

/-- `BulkAddTagsAction.undo` body for one file (lines 206-231):
skip a missing file, count a blank file as success without writing,
otherwise remove each previously added tag and write back. -/
def bulkAddUndoFile [DecidableEq P] (addedTags : List (List Char)) (p : P)
    (fs : FSt P) : Option (FSt P) :=
  match fs p with
  | none => none
  | some content =>
    if trimChars content = [] then some fs
    else
      some (fsUpdate fs p
        (joinCS
          (addedTags.foldl (fun ts t => if t ∈ ts then removeFirst t ts else ts)
            ((splitComma (trimChars content)).map trimChars))))

/-- `BulkAddTagsAction.redo` body for one file (lines 242-270):
skip a missing file, otherwise prepend or append the tags not already
present and write back. -/
def bulkAddRedoFile [DecidableEq P] (addedTags : List (List Char))
    (position : String) (p : P) (fs : FSt P) : Option (FSt P) :=
  match fs p with
  | none => none
  | some content =>
    some (fsUpdate fs p
      (joinCS
        (if position = "prepend"
         then addedTags.reverse.foldl
           (fun ts t => if t ∈ ts then ts else t :: ts) (umParseTags content)
         else addedTags.foldl
           (fun ts t => if t ∈ ts then ts else ts ++ [t]) (umParseTags content))))

/-- The shared per-file loop of the four bulk operations: a `none` step is
a skipped (missing) file, a `some` step succeeded and counts. -/
def bulkRun (f : ι → FSt P → Option (FSt P)) :
    List ι → FSt P → ℕ → ℕ × FSt P
  | [], fs, cnt => (cnt, fs)
  | i :: rest, fs, cnt =>
    match f i fs with
    | none => bulkRun f rest fs cnt
    | some fs' => bulkRun f rest fs' (cnt + 1)

/-- `BulkRemoveTagsAction.undo` (returns `success_count > 0`). -/
def bulkRemoveUndo [DecidableEq P] (tag : List Char)
    (positions : List (P × ℕ)) (fs : FSt P) : Bool × FSt P :=
  (decide (0 < (bulkRun (bulkRemoveUndoFile tag) positions fs 0).1),
   (bulkRun (bulkRemoveUndoFile tag) positions fs 0).2)

/-- `BulkRemoveTagsAction.redo`. -/
def bulkRemoveRedo [DecidableEq P] (tag : List Char)
    (positions : List (P × ℕ)) (fs : FSt P) : Bool × FSt P :=
  (decide (0 < (bulkRun (bulkRemoveRedoFile tag) positions fs 0).1),
   (bulkRun (bulkRemoveRedoFile tag) positions fs 0).2)

/-- `BulkAddTagsAction.undo`. -/
def bulkAddUndo [DecidableEq P] (addedTags : List (List Char))
    (paths : List P) (fs : FSt P) : Bool × FSt P :=
  (decide (0 < (bulkRun (bulkAddUndoFile addedTags) paths fs 0).1),
   (bulkRun (bulkAddUndoFile addedTags) paths fs 0).2)

/-- `BulkAddTagsAction.redo`. -/
def bulkAddRedo [DecidableEq P] (addedTags : List (List Char))
    (position : String) (paths : List P) (fs : FSt P) : Bool × FSt P :=
  (decide (0 < (bulkRun (bulkAddRedoFile addedTags position) paths fs 0).1),
   (bulkRun (bulkAddRedoFile addedTags position) paths fs 0).2)

lemma fsUpdate_isSome [DecidableEq P] (fs : FSt P) (p : P) (c : List Char)
    (hp : (fs p).isSome = true) (q : P) :
    (fsUpdate fs p c q).isSome = (fs q).isSome := by
  unfold fsUpdate
  by_cases hq : q = p
  · rw [if_pos hq, hq, hp]
    rfl
  · rw [if_neg hq]

lemma bulkRun_count (f : ι → FSt P → Option (FSt P)) (path : ι → P)
    (h1 : ∀ i fs, (f i fs).isSome = (fs (path i)).isSome)
    (h2 : ∀ i fs fs', f i fs = some fs' →
      ∀ q, (fs' q).isSome = (fs q).isSome) :
    ∀ (l : List ι) (fs : FSt P) (cnt : ℕ),
      (bulkRun f l fs cnt).1 =
        cnt + l.countP (fun i => (fs (path i)).isSome) := by
  intro l
  induction l with
  | nil =>
    intro fs cnt
    simp [bulkRun]
  | cons i rest ih =>
    intro fs cnt
    unfold bulkRun
    cases hf : f i fs with
    | none =>
      have hmem : (fs (path i)).isSome = false := by
        rw [← h1 i fs, hf]
        rfl
      rw [ih fs cnt, List.countP_cons, hmem]
      simp
    | some fs' =>
      have hmem : (fs (path i)).isSome = true := by
        rw [← h1 i fs, hf]
        rfl
      have hsame : rest.countP (fun j => (fs' (path j)).isSome) =
          rest.countP (fun j => (fs (path j)).isSome) := by
        apply List.countP_congr
        intro j _
        rw [h2 i fs fs' hf (path j)]
      rw [ih fs' (cnt + 1), hsame, List.countP_cons, hmem]
      simp
      omega

lemma bulkRun_frame (f : ι → FSt P → Option (FSt P))
    (h2 : ∀ i fs fs', f i fs = some fs' →
      ∀ q, (fs' q).isSome = (fs q).isSome) :
    ∀ (l : List ι) (fs : FSt P) (cnt : ℕ) (q : P),
      fs q = none → ((bulkRun f l fs cnt).2) q = none := by
  intro l
  induction l with
  | nil => intro fs cnt q hq; exact hq
  | cons i rest ih =>
    intro fs cnt q hq
    unfold bulkRun
    cases hf : f i fs with
    | none => exact ih fs cnt q hq
    | some fs' =>
      apply ih fs' (cnt + 1) q
      have hs := h2 i fs fs' hf q
      rw [hq] at hs
      cases hfs : fs' q with
      | none => rfl
      | some v =>
        rw [hfs] at hs
        simp at hs

lemma bulkRemoveUndoFile_none [DecidableEq P] (tag : List Char)
    (item : P × ℕ) (fs : FSt P) (hc : fs item.1 = none) :
    bulkRemoveUndoFile tag item fs = none := by
  unfold bulkRemoveUndoFile
  rw [hc]

lemma bulkRemoveUndoFile_some [DecidableEq P] (tag : List Char)
    (item : P × ℕ) (fs : FSt P) (content : List Char)
    (hc : fs item.1 = some content) :
    bulkRemoveUndoFile tag item fs =
      some (fsUpdate fs item.1
        (joinCS (insertAt tag (min item.2 (umParseTags content).length)
          (umParseTags content)))) := by
  unfold bulkRemoveUndoFile
  rw [hc]

lemma bulkRemoveRedoFile_none [DecidableEq P] (tag : List Char)
    (item : P × ℕ) (fs : FSt P) (hc : fs item.1 = none) :
    bulkRemoveRedoFile tag item fs = none := by
  unfold bulkRemoveRedoFile
  rw [hc]

lemma bulkRemoveRedoFile_some [DecidableEq P] (tag : List Char)
    (item : P × ℕ) (fs : FSt P) (content : List Char)
    (hc : fs item.1 = some content) :
    bulkRemoveRedoFile tag item fs =
      (if trimChars content = [] then some fs
       else
        some (fsUpdate fs item.1
          (joinCS
            (if tag ∈ (splitComma (trimChars content)).map trimChars
             then removeFirst tag
               ((splitComma (trimChars content)).map trimChars)
             else (splitComma (trimChars content)).map trimChars)))) := by
  unfold bulkRemoveRedoFile
  rw [hc]

lemma bulkAddUndoFile_none [DecidableEq P] (addedTags : List (List Char))
    (p : P) (fs : FSt P) (hc : fs p = none) :
    bulkAddUndoFile addedTags p fs = none := by
  unfold bulkAddUndoFile
  rw [hc]

lemma bulkAddUndoFile_some [DecidableEq P] (addedTags : List (List Char))
    (p : P) (fs : FSt P) (content : List Char) (hc : fs p = some content) :
    bulkAddUndoFile addedTags p fs =
      (if trimChars content = [] then some fs
       else
        some (fsUpdate fs p
          (joinCS
            (addedTags.foldl
              (fun ts t => if t ∈ ts then removeFirst t ts else ts)
              ((splitComma (trimChars content)).map trimChars))))) := by
  unfold bulkAddUndoFile
  rw [hc]

lemma bulkAddRedoFile_none [DecidableEq P] (addedTags : List (List Char))
    (position : String) (p : P) (fs : FSt P) (hc : fs p = none) :
    bulkAddRedoFile addedTags position p fs = none := by
  unfold bulkAddRedoFile
  rw [hc]

lemma bulkAddRedoFile_some [DecidableEq P] (addedTags : List (List Char))
    (position : String) (p : P) (fs : FSt P) (content : List Char)
    (hc : fs p = some content) :
    bulkAddRedoFile addedTags position p fs =
      some (fsUpdate fs p
        (joinCS
          (if position = "prepend"
           then addedTags.reverse.foldl
             (fun ts t => if t ∈ ts then ts else t :: ts) (umParseTags content)
           else addedTags.foldl
             (fun ts t => if t ∈ ts then ts else ts ++ [t])
             (umParseTags content)))) := by
  unfold bulkAddRedoFile
  rw [hc]

lemma bulkRemoveUndoFile_exists [DecidableEq P] (tag : List Char) :
    ∀ (item : P × ℕ) (fs : FSt P),
      (bulkRemoveUndoFile tag item fs).isSome = (fs item.1).isSome := by
  intro item fs
  cases hc : fs item.1 with
  | none => rw [bulkRemoveUndoFile_none tag item fs hc]; rfl
  | some content => rw [bulkRemoveUndoFile_some tag item fs content hc]; rfl

lemma bulkRemoveUndoFile_pres [DecidableEq P] (tag : List Char) :
    ∀ (item : P × ℕ) (fs fs' : FSt P),
      bulkRemoveUndoFile tag item fs = some fs' →
      ∀ q, (fs' q).isSome = (fs q).isSome := by
  intro item fs fs' hf q
  cases hc : fs item.1 with
  | none =>
    rw [bulkRemoveUndoFile_none tag item fs hc] at hf
    exact absurd hf (by simp)
  | some content =>
    rw [bulkRemoveUndoFile_some tag item fs content hc] at hf
    injection hf with hf'
    rw [← hf']
    exact fsUpdate_isSome fs item.1 _ (by rw [hc]; rfl) q

lemma bulkRemoveRedoFile_exists [DecidableEq P] (tag : List Char) :
    ∀ (item : P × ℕ) (fs : FSt P),
      (bulkRemoveRedoFile tag item fs).isSome = (fs item.1).isSome := by
  intro item fs
  cases hc : fs item.1 with
  | none => rw [bulkRemoveRedoFile_none tag item fs hc]; rfl
  | some content =>
    rw [bulkRemoveRedoFile_some tag item fs content hc]
    split <;> rfl

lemma bulkRemoveRedoFile_pres [DecidableEq P] (tag : List Char) :
    ∀ (item : P × ℕ) (fs fs' : FSt P),
      bulkRemoveRedoFile tag item fs = some fs' →
      ∀ q, (fs' q).isSome = (fs q).isSome := by
  intro item fs fs' hf q
  cases hc : fs item.1 with
  | none =>
    rw [bulkRemoveRedoFile_none tag item fs hc] at hf
    exact absurd hf (by simp)
  | some content =>
    rw [bulkRemoveRedoFile_some tag item fs content hc] at hf
    by_cases hb : trimChars content = []
    · rw [if_pos hb] at hf
      injection hf with hf'
      rw [← hf']
    · rw [if_neg hb] at hf
      injection hf with hf'
      rw [← hf']
      exact fsUpdate_isSome fs item.1 _ (by rw [hc]; rfl) q

lemma bulkAddUndoFile_exists [DecidableEq P] (addedTags : List (List Char)) :
    ∀ (p : P) (fs : FSt P),
      (bulkAddUndoFile addedTags p fs).isSome = (fs p).isSome := by
  intro p fs
  cases hc : fs p with
  | none => rw [bulkAddUndoFile_none addedTags p fs hc]; rfl
  | some content =>
    rw [bulkAddUndoFile_some addedTags p fs content hc]
    split <;> rfl

lemma bulkAddUndoFile_pres [DecidableEq P] (addedTags : List (List Char)) :
    ∀ (p : P) (fs fs' : FSt P),
      bulkAddUndoFile addedTags p fs = some fs' →
      ∀ q, (fs' q).isSome = (fs q).isSome := by
  intro p fs fs' hf q
  cases hc : fs p with
  | none =>
    rw [bulkAddUndoFile_none addedTags p fs hc] at hf
    exact absurd hf (by simp)
  | some content =>
    rw [bulkAddUndoFile_some addedTags p fs content hc] at hf
    by_cases hb : trimChars content = []
    · rw [if_pos hb] at hf
      injection hf with hf'
      rw [← hf']
    · rw [if_neg hb] at hf
      injection hf with hf'
      rw [← hf']
      exact fsUpdate_isSome fs p _ (by rw [hc]; rfl) q

lemma bulkAddRedoFile_exists [DecidableEq P] (addedTags : List (List Char))
    (position : String) :
    ∀ (p : P) (fs : FSt P),
      (bulkAddRedoFile addedTags position p fs).isSome = (fs p).isSome := by
  intro p fs
  cases hc : fs p with
  | none => rw [bulkAddRedoFile_none addedTags position p fs hc]; rfl
  | some content =>
    rw [bulkAddRedoFile_some addedTags position p fs content hc]
    rfl

lemma bulkAddRedoFile_pres [DecidableEq P] (addedTags : List (List Char))
    (position : String) :
    ∀ (p : P) (fs fs' : FSt P),
      bulkAddRedoFile addedTags position p fs = some fs' →
      ∀ q, (fs' q).isSome = (fs q).isSome := by
  intro p fs fs' hf q
  cases hc : fs p with
  | none =>
    rw [bulkAddRedoFile_none addedTags position p fs hc] at hf
    exact absurd hf (by simp)
  | some content =>
    rw [bulkAddRedoFile_some addedTags position p fs content hc] at hf
    injection hf with hf'
    rw [← hf']
    exact fsUpdate_isSome fs p _ (by rw [hc]; rfl) q

lemma bulk_generic (f : ι → FSt P → Option (FSt P)) (path : ι → P)
    (h1 : ∀ i fs, (f i fs).isSome = (fs (path i)).isSome)
    (h2 : ∀ i fs fs', f i fs = some fs' →
      ∀ q, (fs' q).isSome = (fs q).isSome)
    (l : List ι) (fs : FSt P) :
    (decide (0 < (bulkRun f l fs 0).1) = true ↔
      ∃ i ∈ l, (fs (path i)).isSome = true) ∧
    (∀ q, fs q = none → ((bulkRun f l fs 0).2) q = none) := by
  constructor
  · rw [bulkRun_count f path h1 h2 l fs 0, decide_eq_true_eq, Nat.zero_add]
    exact List.countP_pos_iff
  · intro q hq
    exact bulkRun_frame f h2 l fs 0 q hq

/-- C7: each of the four bulk undo/redo operations applies its per-file
operation file by file, skipping missing files without aborting (a missing
file stays missing, untouched), and returns true iff at least one captured
file exists (the per-file operation then succeeds on it); an empty capture
list reports failure with the filesystem unchanged. -/
theorem bulk_actions_spec {P : Type} [DecidableEq P] :
    ∀ (fs : FSt P) (tag : List Char) (positions : List (P × ℕ))
      (addedTags : List (List Char)) (paths : List P) (position : String),
      ((bulkRemoveUndo tag positions fs).1 = true ↔
        ∃ pr ∈ positions, (fs pr.1).isSome = true) ∧
      (∀ q, fs q = none → (bulkRemoveUndo tag positions fs).2 q = none) ∧
      ((bulkRemoveRedo tag positions fs).1 = true ↔
        ∃ pr ∈ positions, (fs pr.1).isSome = true) ∧
      (∀ q, fs q = none → (bulkRemoveRedo tag positions fs).2 q = none) ∧
      ((bulkAddUndo addedTags paths fs).1 = true ↔
        ∃ p ∈ paths, (fs p).isSome = true) ∧
      (∀ q, fs q = none → (bulkAddUndo addedTags paths fs).2 q = none) ∧
      ((bulkAddRedo addedTags position paths fs).1 = true ↔
        ∃ p ∈ paths, (fs p).isSome = true) ∧
      (∀ q, fs q = none → (bulkAddRedo addedTags position paths fs).2 q = none) ∧
      bulkRemoveUndo tag [] fs = (false, fs) ∧
      bulkAddUndo addedTags ([] : List P) fs = (false, fs) := by
  intro fs tag positions addedTags paths position
  have hru := bulk_generic (bulkRemoveUndoFile tag) Prod.fst
    (bulkRemoveUndoFile_exists tag) (bulkRemoveUndoFile_pres tag) positions fs
  have hrr := bulk_generic (bulkRemoveRedoFile tag) Prod.fst
    (bulkRemoveRedoFile_exists tag) (bulkRemoveRedoFile_pres tag) positions fs
  have hau := bulk_generic (bulkAddUndoFile addedTags) id
    (bulkAddUndoFile_exists addedTags) (bulkAddUndoFile_pres addedTags)
    paths fs
  have har := bulk_generic (bulkAddRedoFile addedTags position) id
    (bulkAddRedoFile_exists addedTags position)
    (bulkAddRedoFile_pres addedTags position) paths fs
  exact ⟨hru.1, hru.2, hrr.1, hrr.2, hau.1, hau.2, har.1, har.2, rfl, rfl⟩

/-- Witness for C7: a bulk-removal undo over three captured files, one of
which is missing, still reports overall success. -/
theorem bulk_actions_spec_witness :
    (bulkRemoveUndo [Char.ofNat 120]
      [((0 : ℕ), 0), (1, 0), (2, 0)]
      (fun q => if q = 0 ∨ q = 1 then some [Char.ofNat 97] else none)).1 =
      true :=
  ((bulk_actions_spec
      (fun q => if q = 0 ∨ q = 1 then some [Char.ofNat 97] else none)
      [Char.ofNat 120] [((0 : ℕ), 0), (1, 0), (2, 0)] [] [] "").1).mpr
    ⟨((0 : ℕ), 0), by decide, by decide⟩

/-- Underscore-to-space conversion of `format_tags`
(`tag_name.replace("_", " ")` under the configuration flag). -/
def convUnderscore (convert : Bool) (s : String) : String :=
  if convert then String.mk (s.data.map fun c => if c = '_' then ' ' else c)
  else s

/-- `format_tags` from src/tagging_core.py (lines 280-306): character tags
by descending score, then series tags, then general tags by descending
score, comma-space joined. -/
def format_tags (tags : List TagPrediction) (seriesTags : List String)
    (convert : Bool) : List Char :=
  joinCS
    (((sortBy scoreDescLE
        (tags.filter fun p => decide (p.category = TagCategory.character))).map
          (fun p => convUnderscore convert p.name) ++
      seriesTags.map (convUnderscore convert) ++
      (sortBy scoreDescLE
        (tags.filter fun p => decide (p.category = TagCategory.general))).map
          (fun p => convUnderscore convert p.name)).map String.data)

/-- The collaborators of `process_image_loop`: sidecar naming, the
overwrite-decision callback, and oracles for per-image load and inference
outcomes (the loop treats one image's load/inference as an opaque step). -/
structure LoopCtx (P : Type) where
  txtOf : P → P
  overwrite : P → Bool
  loadOk : P → Bool
  infer : P → Option (List TagPrediction)
  labels : List TagMeta
  enableSolo : Bool
  convertUnder : Bool

/-- One iteration body of `process_image_loop` (lines 361-424) after the
cancellation poll: skip on declined overwrite, failed load, failed
inference or empty result; otherwise apply the solo rule, format, and
write the sidecar. -/
def processOne [DecidableEq P] (C : LoopCtx P) (fs : FSt P) (p : P) : FSt P :=
  if (fs (C.txtOf p)).isSome && !(C.overwrite (C.txtOf p)) then fs
  else if !(C.loadOk p) then fs
  else
    match C.infer p with
    | none => fs
    | some tags =>
      if tags = [] then fs
      else
        fsUpdate fs (C.txtOf p)
          (format_tags (filterTagsBySoloRule tags C.labels C.enableSolo).1
            (((filterTagsBySoloRule tags C.labels C.enableSolo).2).sort (· ≤ ·))
            C.convertUnder)

/-- `process_image_loop` (lines 334-424): poll the stop checker at the top
of each iteration (`stop i` is the result of the poll at index `i`), break
on true, otherwise run the body and continue. -/
def process_image_loop [DecidableEq P] (C : LoopCtx P) (stop : ℕ → Bool) :
    List P → ℕ → FSt P → FSt P
  | [], _, fs => fs
  | p :: rest, i, fs =>
    if stop i then fs
    else process_image_loop C stop rest (i + 1) (processOne C fs p)

/-- The loop run to completion with no stop request. -/
def processAll [DecidableEq P] (C : LoopCtx P) (paths : List P) (fs : FSt P) :
    FSt P :=
  paths.foldl (processOne C) fs

lemma processOne_frame [DecidableEq P] (C : LoopCtx P) (fs : FSt P) (p q : P)
    (hq : q ≠ C.txtOf p) : processOne C fs p q = fs q := by
  unfold processOne
  split
  · rfl
  · split
    · rfl
    · cases hinf : C.infer p with
      | none => rfl
      | some tags =>
        show (if tags = [] then fs
          else
            fsUpdate fs (C.txtOf p)
              (format_tags (filterTagsBySoloRule tags C.labels C.enableSolo).1
                (((filterTagsBySoloRule tags C.labels C.enableSolo).2).sort
                  (· ≤ ·))
                C.convertUnder)) q = fs q
        by_cases ht : tags = []
        · rw [if_pos ht]
        · rw [if_neg ht]
          unfold fsUpdate
          rw [if_neg hq]

lemma processAll_frame [DecidableEq P] (C : LoopCtx P) :
    ∀ (paths : List P) (fs : FSt P) (q : P),
      (∀ p ∈ paths, q ≠ C.txtOf p) → processAll C paths fs q = fs q := by
  intro paths
  induction paths with
  | nil => intro fs q _; rfl
  | cons p rest ih =>
    intro fs q hq
    show processAll C rest (processOne C fs p) q = fs q
    rw [ih (processOne C fs p) q (fun r hr => hq r (List.mem_cons_of_mem p hr)),
      processOne_frame C fs p q (hq p (List.mem_cons_self p rest))]

lemma process_image_loop_take [DecidableEq P] (C : LoopCtx P)
    (stop : ℕ → Bool) (i : ℕ) (hstop : stop i = true) :
    ∀ (paths : List P) (i₀ : ℕ) (fs : FSt P),
      (∀ j, i₀ ≤ j → j < i → stop j = false) → i₀ ≤ i →
      process_image_loop C stop paths i₀ fs =
        processAll C (paths.take (i - i₀)) fs := by
  intro paths
  induction paths with
  | nil =>
    intro i₀ fs _ _
    rw [List.take_nil]
    rfl
  | cons p rest ih =>
    intro i₀ fs hfalse hle
    by_cases hi : i₀ = i
    · subst hi
      unfold process_image_loop
      rw [hstop]
      simp only [Nat.sub_self, List.take_zero]
      rfl
    · have hlt : i₀ < i := lt_of_le_of_ne hle hi
      have hf : stop i₀ = false := hfalse i₀ (le_refl i₀) hlt
      unfold process_image_loop
      rw [hf]
      simp only [Bool.false_eq_true, if_false]
      rw [ih (i₀ + 1) (processOne C fs p)
        (fun j hj1 hj2 => hfalse j (Nat.le_of_succ_le hj1) hj2) hlt]
      have hsub : i - i₀ = (i - (i₀ + 1)) + 1 := by omega
      rw [hsub, List.take_succ_cons]
      rfl

/-- C9: if the stop checker first returns true at iteration index `i`, the
loop equals the un-cancelled loop over only the first `i` images (so the
remaining images are never loaded, inferred, or written), and any path
that is not the sidecar of one of those first `i` images — in particular
the sidecar of any remaining image not shared with an earlier one — is
left exactly as it was. -/
theorem process_image_loop_cancellation {P : Type} [DecidableEq P] :
    ∀ (C : LoopCtx P) (stop : ℕ → Bool) (paths : List P) (fs : FSt P) (i : ℕ),
      (∀ j, j < i → stop j = false) → stop i = true →
      process_image_loop C stop paths 0 fs =
        processAll C (paths.take i) fs ∧
      (∀ q, (∀ p ∈ paths.take i, q ≠ C.txtOf p) →
        process_image_loop C stop paths 0 fs q = fs q) := by
  intro C stop paths fs i hfalse hstop
  have heq := process_image_loop_take C stop i hstop paths 0 fs
    (fun j _ hj => hfalse j hj) (Nat.zero_le i)
  rw [Nat.sub_zero] at heq
  refine ⟨heq, ?_⟩
  intro q hq
  rw [heq]
  exact processAll_frame C (paths.take i) fs q hq

/-- Witness for C9: a poll returning true at index 1 stops a three-image
run after exactly one image. -/
theorem process_image_loop_cancellation_witness :
    process_image_loop
      (⟨fun n => n + 100, fun _ => true, fun _ => false, fun _ => none,
        [], false, false⟩ : LoopCtx ℕ)
      (fun j => decide (j = 1)) [5, 6, 7] 0 (fun _ => none) =
    processAll
      (⟨fun n => n + 100, fun _ => true, fun _ => false, fun _ => none,
        [], false, false⟩ : LoopCtx ℕ)
      ([5, 6, 7].take 1) (fun _ => none) := by
  refine (process_image_loop_cancellation _ _ [5, 6, 7] (fun _ => none) 1
    ?_ rfl).1
  intro j hj
  have hj0 : j = 0 := by omega
  subst hj0
  rfl
